import Mathlib

/-!
Verification of the NBA draft-history core: team-alias resolution,
trade-chain parsing and CSV pick ingestion, shallowly embedded from the
TypeScript sources (`teamAliases.ts`, `csvParser.ts`, `tradeParser.ts`,
`DraftTable.vue`).  Strings are processed as `List Char`, numbers as a
JavaScript-number model (`JSNum`) with an explicit NaN.
-/

/-- Model of a JavaScript number as produced by `parseInt` / `parseFloat`:
either NaN, a signed infinity, or an exact rational value (decimal
literals are represented exactly; binary rounding is not modelled). -/
inductive JSNum where
  | nan : JSNum
  | inf (neg : Bool) : JSNum
  | val (q : ℚ) : JSNum
deriving DecidableEq

/-- Embedding of the JavaScript comparison `x < q` for a bound `q`:
false when `x` is NaN. -/
def JSNum.ltQ : JSNum → ℚ → Bool
  | .nan, _ => false
  | .inf neg, _ => neg
  | .val x, q => decide (x < q)

/-- ASCII uppercasing of one character, the behaviour of JavaScript
`toUpperCase` on the ASCII range. -/
def upChar (c : Char) : Char :=
  if 97 ≤ c.toNat ∧ c.toNat ≤ 122 then Char.ofNat (c.toNat - 32) else c

/-- ASCII lowercasing of one character, the behaviour of JavaScript
`toLowerCase` on the ASCII range. -/
def downChar (c : Char) : Char :=
  if 65 ≤ c.toNat ∧ c.toNat ≤ 90 then Char.ofNat (c.toNat + 32) else c

/-- Uppercase a character list. -/
def upChars (l : List Char) : List Char := l.map upChar

/-- Uppercase a string (JavaScript `toUpperCase`, ASCII range). -/
def upStr (s : String) : String := ⟨upChars s.data⟩

/-- Lowercase a string (JavaScript `toLowerCase`, ASCII range). -/
def downStr (s : String) : String := ⟨s.data.map downChar⟩

/-- The static team alias table from `frontend/src/utils/teamAliases.ts`
(the copy with year-based aliasing): historical code on the left, the
canonical present-day code on the right. -/
def TEAM_ALIAS_MAP : List (String × String) :=
  [("NJN", "BKN"), ("SEA", "OKC"), ("BAL", "WAS"), ("BUF", "LAC"),
   ("CIN", "SAC"), ("FWP", "DET"), ("KCK", "SAC"), ("NOJ", "UTA"),
   ("ROR", "SAC"), ("SDC", "LAC"), ("SDR", "HOU"), ("STH", "ATL"),
   ("SYR", "PHI"), ("TCB", "ATL"), ("VAN", "MEM")]

/-- The second copy of the alias table, embedded at the end of
`frontend/src/utils/csvParser.ts` (the copy without year-based aliasing):
it omits `ROR` and `STH` and maps `VAN` to `TOR`. -/
def TEAM_ALIAS_MAP_frontend : List (String × String) :=
  [("NJN", "BKN"), ("SEA", "OKC"), ("BAL", "WAS"), ("BUF", "LAC"),
   ("CIN", "SAC"), ("FWP", "DET"), ("KCK", "SAC"), ("NOJ", "UTA"),
   ("SDC", "LAC"), ("SDR", "HOU"), ("SYR", "PHI"), ("TCB", "ATL"),
   ("VAN", "TOR")]

/-- Embedding of `getCanonicalTeam(team, year?)`: uppercase the input;
`MIN` with a year before 1988 canonicalises to `LAL`; otherwise the alias
table is consulted, falling back to the uppercased input. -/
def getCanonicalTeam (team : String) (year : Option JSNum) : String :=
  let upperTeam := upStr team
  if upperTeam = "MIN" ∧ (match year with
      | none => false
      | some y => y.ltQ 1988) = true then "LAL"
  else ((TEAM_ALIAS_MAP.lookup upperTeam).getD upperTeam)

/-- Embedding of `isAlias(team)`. -/
def isAlias (team : String) : Bool :=
  (TEAM_ALIAS_MAP.lookup (upStr team)).isSome

/-- Embedding of `getDisplayTeam(team)`: every branch of the source
returns the uppercased input. -/
def getDisplayTeam (team : String) : String := upStr team

/-- Embedding of `getAllTeamCodes(canonicalTeam, year?)`: the uppercased
canonical code, then `MIN` in the pre-1988 `LAL` case, then every alias
whose mapped target uppercases to the canonical code. -/
def getAllTeamCodes (canonicalTeam : String) (year : Option JSNum) : List String :=
  let canonical := upStr canonicalTeam
  [canonical] ++
  (if canonical = "LAL" ∧ (match year with
      | none => false
      | some y => y.ltQ 1988) = true then ["MIN"] else []) ++
  (TEAM_ALIAS_MAP.filter (fun p => upStr p.2 = canonical)).map (fun p => upStr p.1)

/-- Restatement of the §4.1 contract for `canonicalize`, written from the
spec's words over an optional integer year, to be compared with the
source embedding `getCanonicalTeam`. -/
def canonicalizeSpec (code : String) (year : Option Int) : String :=
  let up := upStr code
  if up = "MIN" ∧ (∃ y, year = some y ∧ y < 1988) then "LAL"
  else ((TEAM_ALIAS_MAP.lookup up).getD up)

instance (year : Option Int) :
    Decidable (∃ y, year = some y ∧ y < 1988) := by
  cases year with
  | none => exact isFalse (by simp)
  | some y => exact decidable_of_iff (y < 1988) (by simp)

/-- JavaScript `\s` on the ASCII range. -/
def wsB (c : Char) : Bool := c.isWhitespace

/-- JavaScript `String.prototype.trim`: whitespace removed from both
ends. -/
def trimChars (l : List Char) : List Char :=
  ((l.dropWhile wsB).reverse.dropWhile wsB).reverse

/-- JavaScript `split` with a single-character separator: every
occurrence splits, empty segments preserved. -/
def splitChar (sep : Char) : List Char → List Char → List (List Char)
  | [], cur => [cur.reverse]
  | c :: rest, cur =>
    if c = sep then cur.reverse :: splitChar sep rest []
    else splitChar sep rest (c :: cur)

/-- JavaScript `split(' to ')`: split on non-overlapping leftmost
occurrences of the literal four-character separator.  The first argument
is a structural-recursion bound, consuming one unit per scanned position;
`splitToSep` supplies the input length, which always suffices. -/
def splitToSepF : Nat → List Char → List Char → List (List Char)
  | _, [], cur => [cur.reverse]
  | 0, l, cur => [cur.reverse ++ l]
  | fuel + 1, c :: rest, cur =>
    if c = ' ' ∧ rest.take 3 = ['t', 'o', ' '] then
      cur.reverse :: splitToSepF fuel (rest.drop 3) []
    else splitToSepF fuel rest (c :: cur)

/-- JavaScript `split(' to ')` at the input's own length as the bound. -/
def splitToSep (l cur : List Char) : List (List Char) :=
  splitToSepF l.length l cur

/-- Match of the regular expression `\s+to\s+` anchored at the start of
the input; returns the remainder after the (greedy) match. -/
def matchWsToWs (l : List Char) : Option (List Char) :=
  if l.takeWhile wsB = [] then none
  else match l.dropWhile wsB with
    | 't' :: 'o' :: rest =>
        if rest.takeWhile wsB = [] then none else some (rest.dropWhile wsB)
    | _ => none

/-- JavaScript `split(/\s+to\s+/)`: scan left to right; at each position
try the anchored match and split there when it succeeds.  The first
argument is a structural-recursion bound as in `splitToSepF`. -/
def splitWsToWsF : Nat → List Char → List Char → List (List Char)
  | _, [], cur => [cur.reverse]
  | 0, l, cur => [cur.reverse ++ l]
  | fuel + 1, c :: rest, cur =>
    match matchWsToWs (c :: rest) with
    | some rem => cur.reverse :: splitWsToWsF fuel rem []
    | none => splitWsToWsF fuel rest (c :: cur)

/-- JavaScript `split(/\s+to\s+/)` at the input's own length as the
bound. -/
def splitWsToWs (l cur : List Char) : List (List Char) :=
  splitWsToWsF l.length l cur

/-- JavaScript `position.replace(/^[SP]/g, '')`: a single leading `S` or
`P` is removed (the anchored pattern can only ever match once). -/
def stripSP : List Char → List Char
  | [] => []
  | c :: rest => if c = 'S' ∨ c = 'P' then rest else c :: rest

/-- JavaScript falsy-string default: `v || d`. -/
def jsOrDefault (v d : List Char) : List Char := if v = [] then d else v

/-- Numeric value of a decimal digit string. -/
def digitsToNat (l : List Char) : Nat :=
  l.foldl (fun a c => a * 10 + (c.toNat - 48)) 0

/-- Hexadecimal digit test. -/
def isHexDigitB (c : Char) : Bool :=
  (48 ≤ c.toNat ∧ c.toNat ≤ 57) ∨ (97 ≤ c.toNat ∧ c.toNat ≤ 102) ∨
    (65 ≤ c.toNat ∧ c.toNat ≤ 70)

/-- Numeric value of a hexadecimal digit string. -/
def hexToNat (l : List Char) : Nat :=
  l.foldl (fun a c =>
    a * 16 + (if c.toNat ≤ 57 then c.toNat - 48
              else if c.toNat ≤ 70 then c.toNat - 55 else c.toNat - 87)) 0

/-- Read an optional leading sign; `true` means negative. -/
def readSign : List Char → Bool × List Char
  | '-' :: rest => (true, rest)
  | '+' :: rest => (false, rest)
  | l => (false, l)

/-- JavaScript `parseInt(s)` with no radix argument: skip whitespace,
optional sign, `0x` prefix selects hexadecimal, longest digit prefix;
NaN when no digits follow. -/
def jsParseInt (l : List Char) : JSNum :=
  let t := l.dropWhile wsB
  let sg := readSign t
  let t2 := sg.2
  if t2.take 2 = ['0', 'x'] ∨ t2.take 2 = ['0', 'X'] then
    let ds := (t2.drop 2).takeWhile isHexDigitB
    if ds = [] then .nan
    else .val ((if sg.1 then -(hexToNat ds : ℤ) else (hexToNat ds : ℤ) : ℤ) : ℚ)
  else
    let ds := t2.takeWhile Char.isDigit
    if ds = [] then .nan
    else .val ((if sg.1 then -(digitsToNat ds : ℤ) else (digitsToNat ds : ℤ) : ℤ) : ℚ)

/-- Exact value of a parsed decimal literal
`sign integerPart . fractionPart e exponent`: the mantissa digits over
`10 ^ |fractionPart|`, scaled by `10 ^ exponent` (expressed with a single
normalising `mkRat`). -/
def decLitVal (neg : Bool) (ip fp : List Char) (ex : ℤ) : ℚ :=
  let m : ℤ := if neg then -(digitsToNat (ip ++ fp) : ℤ) else (digitsToNat (ip ++ fp) : ℤ)
  let e : ℤ := ex - fp.length
  if 0 ≤ e then ((m * 10 ^ e.toNat : ℤ) : ℚ) else mkRat m (10 ^ (-e).toNat)

/-- JavaScript `parseFloat(s)`: skip whitespace, optional sign, the
`Infinity` literal, else the longest decimal-literal prefix with optional
fraction and exponent; NaN when no digits at all. -/
def jsParseFloat (l : List Char) : JSNum :=
  let t := l.dropWhile wsB
  let sg := readSign t
  let t2 := sg.2
  if t2.take 8 = "Infinity".data then .inf sg.1
  else
    let ip := t2.takeWhile Char.isDigit
    let r1 := t2.drop ip.length
    let fr : List Char × List Char := match r1 with
      | '.' :: r => (r.takeWhile Char.isDigit, r.dropWhile Char.isDigit)
      | _ => ([], r1)
    let fp := fr.1
    let r2 := fr.2
    if ip = [] ∧ fp = [] then .nan
    else
      let ex : ℤ := match r2 with
        | c :: r3 =>
          if c = 'e' ∨ c = 'E' then
            let esg := readSign r3
            let eds := esg.2.takeWhile Char.isDigit
            if eds = [] then 0
            else (if esg.1 then -(digitsToNat eds : ℤ) else (digitsToNat eds : ℤ))
          else 0
        | [] => 0
      .val (decLitVal sg.1 ip fp ex)

/-- Embedding of the `parseCSVLine` loop: a double quote toggles the
in-quotes state, an unquoted comma closes the current (trimmed) field,
anything else is accumulated. -/
def parseCSVLineAux : List Char → List Char → Bool → List (List Char)
  | [], cur, _ => [trimChars cur.reverse]
  | c :: rest, cur, inQuotes =>
    if c.toNat = 34 then parseCSVLineAux rest cur (!inQuotes)
    else if c = ',' ∧ ¬inQuotes then
      trimChars cur.reverse :: parseCSVLineAux rest [] inQuotes
    else parseCSVLineAux rest (c :: cur) inQuotes

/-- Embedding of `parseCSVLine(line)`. -/
def parseCSVLine (l : List Char) : List (List Char) := parseCSVLineAux l [] false

/-- Case-insensitive literal match: drop `code` from the front of the
input, comparing characters up to ASCII case. -/
def dropCI : List Char → List Char → Option (List Char)
  | [], t => some t
  | _ :: _, [] => none
  | c :: cs, d :: ds => if upChar c = upChar d then dropCI cs ds else none

/-- Match of `\s+to\s+` with the `i` flag, anchored at the start. -/
def matchWsToWsCI (l : List Char) : Option (List Char) :=
  if l.takeWhile wsB = [] then none
  else match l.dropWhile wsB with
    | c1 :: c2 :: rest =>
        if upChar c1 = 'T' ∧ upChar c2 = 'O' then
          (if rest.takeWhile wsB = [] then none else some (rest.dropWhile wsB))
        else none
    | _ => none

/-- Embedding of the per-code regular-expression test in `parseCSV`:
`new RegExp('^' + teamCode + '\\s+to\\s+', 'i').test(draftTrades)`. -/
def tradedAwayB (code dt : List Char) : Bool :=
  match dropCI code dt with
  | none => false
  | some rest => (matchWsToWsCI rest).isSome

/-- The `wasTradedAway` check of `parseCSV`: some code of the parsed
team's alias set (for the pick's year) prefixes the trade string before
a `" to "` separator. -/
def wasTradedAway (team : String) (year : JSNum) (dt : List Char) : Bool :=
  (getAllTeamCodes team (some year)).any (fun c => tradedAwayB c.data dt)

/-- Embedding of the `DraftPick` record of `types/draft.ts` as built by
`parseCSV` (the optional `nba_id` is never set there and is omitted). -/
structure DraftPick where
  year : JSNum
  round : JSNum
  pick : JSNum
  player : String
  position : String
  height : String
  weight : JSNum
  age : JSNum
  preDraftTeam : String
  class_ : String
  draftTrades : Option String
  yearsOfService : JSNum
  team : String
  teamLogo : String
deriving DecidableEq

/-- One iteration of the `parseCSV` row loop: skip blank lines, lines
with fewer than 13 fields and picks traded away from the parsed team;
otherwise build the `DraftPick`. -/
def processLine (team : String) (line : List Char) : Option DraftPick :=
  if line = [] ∨ trimChars line = [] then none
  else
    let values := parseCSVLine line
    if values.length < 13 then none
    else
      let draftTrades := trimChars (values.getD 10 [])
      let year := jsParseInt (jsOrDefault (values.getD 0 []) ['0'])
      if draftTrades ≠ [] ∧ wasTradedAway team year draftTrades then none
      else
        some ⟨year,
          jsParseInt (jsOrDefault (values.getD 1 []) ['0']),
          jsParseInt (jsOrDefault (values.getD 2 []) ['0']),
          ⟨values.getD 3 []⟩,
          ⟨stripSP (values.getD 4 [])⟩,
          ⟨values.getD 5 []⟩,
          jsParseFloat (jsOrDefault (values.getD 6 []) ['0']),
          jsParseFloat (jsOrDefault (values.getD 7 []) ['0']),
          ⟨values.getD 8 []⟩,
          ⟨values.getD 9 []⟩,
          (if draftTrades ≠ [] then some ⟨draftTrades⟩ else none),
          jsParseInt (jsOrDefault (values.getD 11 []) ['0']),
          team,
          "https://raw.githubusercontent.com/gtkacz/nba-logo-api/main/icons/" ++
            downStr team ++ ".svg"⟩

/-- Embedding of `parseCSV(csvText, teamAbbreviation)`: trim, split into
lines, require a header plus data, process every data line. -/
def parseCSV (csvText team : String) : List DraftPick :=
  let lines := splitChar '\n' (trimChars csvText.data) []
  if lines.length < 2 then []
  else (lines.drop 1).filterMap (processLine team)

/-- Embedding of the `TradeStep` record. -/
structure TradeStep where
  from_ : String
  to_ : String
deriving DecidableEq

/-- Embedding of the `ParsedTrade` record. -/
structure ParsedTrade where
  original : String
  steps : List TradeStep
  finalTeam : String
deriving DecidableEq

/-- One step of the `parseDraftTrade` loop: the step between adjacent
`" to "`-segments, whose `from` is the last space-token of the left
segment and whose `to` the first space-token of the right segment; no
step is produced when either token is empty. -/
def tradeStepOf (pq : List Char × List Char) : Option TradeStep :=
  let fromRaw := ((splitChar ' ' (trimChars pq.1) []).getLast?).getD []
  let toRaw := ((splitChar ' ' (trimChars pq.2) []).head?).getD []
  if fromRaw ≠ [] ∧ toRaw ≠ [] then
    some ⟨getDisplayTeam ⟨fromRaw⟩, getDisplayTeam ⟨toRaw⟩⟩
  else none

/-- Embedding of `parseDraftTrade(tradeString)`: split strictly on
`" to "` and build one candidate step per adjacent segment pair. -/
def parseDraftTrade (tradeString : Option String) : Option ParsedTrade :=
  match tradeString with
  | none => none
  | some s =>
    if s.data = [] ∨ trimChars s.data = [] then none
    else
      let parts := splitToSep s.data []
      let steps := (parts.zip parts.tail).filterMap tradeStepOf
      let finalTeam := match steps.getLast? with
        | some st => getDisplayTeam st.to_
        | none => ""
      some ⟨s, steps, finalTeam⟩

/-- The display/canonical pair list built by the extraction phase of
`parseTradeChain`: the whole first segment, then the leading token (at
most 4 characters) of every later segment. -/
def chainPairs (parts : List (List Char)) : List (String × String) :=
  (match parts.head? with
   | some p0 =>
       let firstTeam := trimChars p0
       if firstTeam ≠ [] then
         [(getDisplayTeam ⟨firstTeam⟩, getCanonicalTeam ⟨firstTeam⟩ none)]
       else []
   | none => []) ++
  parts.tail.filterMap (fun p =>
    let p' := trimChars p
    if p' = [] then none
    else
      let team := p'.takeWhile (fun c => !(wsB c))
      if team ≠ [] ∧ team.length ≤ 4 then
        some (getDisplayTeam ⟨team⟩, getCanonicalTeam ⟨team⟩ none)
      else none)

/-- One iteration of the duplicate-collapsing loop of `parseTradeChain`:
a pair is appended unless one of its components is empty or its canonical
form equals the last retained canonical form. -/
def unifyStep (acc : List String × List String) (p : String × String) :
    List String × List String :=
  if p.1 = "" ∨ p.2 = "" then acc
  else if acc.2.getLast? = some p.2 then acc
  else (acc.1 ++ [p.1], acc.2 ++ [p.2])

/-- Embedding of `parseTradeChain(trades)` from `DraftTable.vue`. -/
def parseTradeChain (trades : Option String) : List String :=
  match trades with
  | none => []
  | some s =>
    if s.data = [] ∨ trimChars s.data = [] then []
    else
      let parts := ((splitWsToWs s.data []).map trimChars).filter (fun p => p ≠ [])
      if parts.length < 2 then []
      else
        let unified := (List.foldl unifyStep ([], []) (chainPairs parts)).1
        if 2 ≤ unified.length then unified else []


/-- A team code as the trade-string grammar of §6 requires: 2 to 4
characters, none of them whitespace. -/
def ValidTeam (t : String) : Prop :=
  2 ≤ t.data.length ∧ t.data.length ≤ 4 ∧ ∀ c ∈ t.data, wsB c = false

instance (t : String) : Decidable (ValidTeam t) := by
  unfold ValidTeam
  infer_instance

/-- Concatenate team codes with the four-character separator of the
grammar `Team (" to " Team)+`. -/
def joinSepChars : List (List Char) → List Char
  | [] => []
  | [t] => t
  | t :: rest => t ++ [' ', 't', 'o', ' '] ++ joinSepChars rest

/-- The trade string generated by the grammar from a team-code list. -/
def joinToSep (ts : List String) : String :=
  ⟨joinSepChars (ts.map String.data)⟩

theorem toNat_ofNat_of_lt {n : Nat} (h : n < 55296) : (Char.ofNat n).toNat = n := by
  have hv : n.isValidChar := Or.inl h
  rw [Char.ofNat, dif_pos hv]
  simp [Char.ofNatAux, Char.toNat, UInt32.toNat, BitVec.toNat_ofNatLt]

theorem upChar_eq_of_lower {c : Char} (h : 97 ≤ c.toNat ∧ c.toNat ≤ 122) :
    upChar c = Char.ofNat (c.toNat - 32) := by
  unfold upChar
  rw [if_pos h]

theorem upChar_eq_of_not_lower {c : Char} (h : ¬(97 ≤ c.toNat ∧ c.toNat ≤ 122)) :
    upChar c = c := by
  unfold upChar
  rw [if_neg h]

theorem upChar_idem (c : Char) : upChar (upChar c) = upChar c := by
  by_cases h : 97 ≤ c.toNat ∧ c.toNat ≤ 122
  · have h1 : (Char.ofNat (c.toNat - 32)).toNat = c.toNat - 32 :=
      toNat_ofNat_of_lt (by omega)
    rw [upChar_eq_of_lower h, upChar_eq_of_not_lower (by rw [h1]; omega)]
  · rw [upChar_eq_of_not_lower h, upChar_eq_of_not_lower h]

theorem upChars_idem (l : List Char) : upChars (upChars l) = upChars l := by
  simp [upChars, Function.comp, upChar_idem]

theorem upStr_idem (s : String) : upStr (upStr s) = upStr s := by
  simp [upStr, upChars_idem]

/-- C2: `getCanonicalTeam` uppercases its input; `MIN` with a supplied
year below 1988 resolves to `LAL`; otherwise the alias table's mapping is
returned when the uppercased code is a key and the uppercased input
otherwise; in particular `SEA ↦ OKC`, `(MIN, 1985) ↦ LAL` and
`(MIN, 1995) ↦ MIN`. -/
theorem getCanonicalTeam_spec :
    (∀ (code : String) (year : Option Int),
       getCanonicalTeam code (year.map (fun y => JSNum.val (y : ℚ))) =
         canonicalizeSpec code year) ∧
    getCanonicalTeam "SEA" none = "OKC" ∧
    getCanonicalTeam "MIN" (some (JSNum.val 1985)) = "LAL" ∧
    getCanonicalTeam "MIN" (some (JSNum.val 1995)) = "MIN" := by
  refine ⟨?_, by decide, by decide, by decide⟩
  intro code year
  cases year with
  | none => simp [getCanonicalTeam, canonicalizeSpec]
  | some y =>
      have hcast : ((y : ℚ) < 1988) ↔ (y < 1988) := by exact_mod_cast Iff.rfl
      by_cases hy : y < 1988
      · simp [getCanonicalTeam, canonicalizeSpec, JSNum.ltQ, hy, hcast.mpr hy]
      · have hq : ¬((y : ℚ) < 1988) := fun h => hy (hcast.mp h)
        simp [getCanonicalTeam, canonicalizeSpec, JSNum.ltQ, hy, hq]

/-- C6: membership in `getAllTeamCodes canonical year` holds exactly for
the uppercased canonical code, for `MIN` in the pre-1988 `LAL` case, and
for the uppercased alias codes whose mapped target equals the canonical
code case-insensitively; in particular `SEA ∈ allCodesFor OKC`,
`MIN ∈ allCodesFor (LAL, 1985)` and `MIN ∉ allCodesFor (LAL, 1995)`. -/
theorem getAllTeamCodes_spec :
    (∀ (canonical : String) (year : Option Int) (x : String),
       x ∈ getAllTeamCodes canonical (year.map (fun y => JSNum.val (y : ℚ))) ↔
         (x = upStr canonical ∨
          (upStr canonical = "LAL" ∧ (∃ y, year = some y ∧ y < 1988) ∧ x = "MIN") ∨
          (∃ p ∈ TEAM_ALIAS_MAP, upStr p.2 = upStr canonical ∧ x = upStr p.1))) ∧
    "SEA" ∈ getAllTeamCodes "OKC" none ∧
    "MIN" ∈ getAllTeamCodes "LAL" (some (JSNum.val 1985)) ∧
    "MIN" ∉ getAllTeamCodes "LAL" (some (JSNum.val 1995)) := by
  refine ⟨?_, by decide, by decide, by decide⟩
  intro canonical year x
  cases year with
  | none =>
      simp [getAllTeamCodes, List.mem_filter, List.mem_map, and_assoc,
        eq_comm (a := x)]
  | some y =>
      have hcast : ((y : ℚ) < 1988) ↔ (y < 1988) := by exact_mod_cast Iff.rfl
      by_cases hy : y < 1988
      · simp only [getAllTeamCodes, JSNum.ltQ, List.mem_append, List.mem_map,
          List.mem_filter, List.mem_singleton, Option.map_some']
        simp [hcast.mpr hy, hy, and_assoc, or_assoc, eq_comm (a := x)]
      · have hq : ¬((y : ℚ) < 1988) := fun h => hy (hcast.mp h)
        simp only [getAllTeamCodes, JSNum.ltQ, List.mem_append, List.mem_map,
          List.mem_filter, List.mem_singleton, Option.map_some']
        simp [hq, hy, and_assoc, or_assoc, eq_comm (a := x)]

/-- C7: the two copies of the static alias table disagree: the
`teamAliases.ts` copy maps `VAN` to `MEM` as the contract requires, while
the copy embedded in `csvParser.ts` maps `VAN` to `TOR` (and omits the
`ROR` and `STH` entries), so the tables do not define the same mapping
pairs. -/
theorem teamAliasMaps_disagree_on_VAN :
    TEAM_ALIAS_MAP.lookup "VAN" = some "MEM" ∧
    TEAM_ALIAS_MAP_frontend.lookup "VAN" = some "TOR" ∧
    TEAM_ALIAS_MAP ≠ TEAM_ALIAS_MAP_frontend := by decide

theorem matchWsToWs_length (l r : List Char) (h : matchWsToWs l = some r) :
    r.length < l.length := by
  unfold matchWsToWs at h
  split at h
  · exact absurd h (by simp)
  · rename_i htw
    have hsplit : (l.takeWhile wsB).length + (l.dropWhile wsB).length = l.length := by
      rw [← List.length_append, List.takeWhile_append_dropWhile]
    have htwpos : 0 < (l.takeWhile wsB).length := List.length_pos.mpr htw
    split at h
    · rename_i rest hdw
      split at h
      · exact absurd h (by simp)
      · have hr : r = rest.dropWhile wsB := by
          injection h with h
          exact h.symm
        have hle : (rest.dropWhile wsB).length ≤ rest.length := by
          simpa using List.Sublist.length_le (List.dropWhile_sublist (p := wsB) (l := rest))
        rw [hr]
        have : (l.dropWhile wsB).length = rest.length + 2 := by
          rw [hdw]
          simp
        omega
    · exact absurd h (by simp)

theorem processLine_some_spec (team : String) (line : List Char) (p : DraftPick)
    (h : processLine team line = some p) :
    p.year = jsParseInt (jsOrDefault ((parseCSVLine line).getD 0 []) ['0']) ∧
    p.round = jsParseInt (jsOrDefault ((parseCSVLine line).getD 1 []) ['0']) ∧
    p.pick = jsParseInt (jsOrDefault ((parseCSVLine line).getD 2 []) ['0']) ∧
    p.weight = jsParseFloat (jsOrDefault ((parseCSVLine line).getD 6 []) ['0']) ∧
    p.age = jsParseFloat (jsOrDefault ((parseCSVLine line).getD 7 []) ['0']) ∧
    p.yearsOfService = jsParseInt (jsOrDefault ((parseCSVLine line).getD 11 []) ['0']) ∧
    p.draftTrades = (if trimChars ((parseCSVLine line).getD 10 []) ≠ [] then
        some ⟨trimChars ((parseCSVLine line).getD 10 [])⟩ else none) ∧
    (∀ t, p.draftTrades = some t → wasTradedAway team p.year t.data = false) := by
  simp only [processLine] at h
  set dt := trimChars ((parseCSVLine line).getD 10 []) with hdt0
  set yr := jsParseInt (jsOrDefault ((parseCSVLine line).getD 0 []) ['0']) with hyr0
  split at h
  · exact absurd h (by simp)
  split at h
  · exact absurd h (by simp)
  split at h
  · exact absurd h (by simp)
  rename_i hguard
  injection h with h
  subst h
  refine ⟨rfl, rfl, rfl, rfl, rfl, rfl, rfl, ?_⟩
  intro t ht
  have ht2 : (if dt ≠ [] then some (⟨dt⟩ : String) else none) = some t := ht
  show wasTradedAway team yr t.data = false
  by_cases hdt : dt = []
  · rw [if_neg (by simp [hdt])] at ht2
    exact absurd ht2 (by simp)
  · rw [if_pos hdt] at ht2
    injection ht2 with ht3
    subst ht3
    show wasTradedAway team yr dt = false
    have hnw : ¬ wasTradedAway team yr dt = true := fun hw => hguard ⟨hdt, hw⟩
    simpa using hnw

/-- C1: every pick emitted by `parseCSV` fails the exclusion predicate:
when its trade string is non-null, no code of the parsed team's alias set
for the pick's year prefixes the trade string before a `" to "`
separator (case-insensitively, whitespace-tolerantly). -/
theorem parseCSV_never_emits_traded_away :
    ∀ (csvText team : String) (p : DraftPick), p ∈ parseCSV csvText team →
      ∀ t, p.draftTrades = some t →
        ¬ ∃ code ∈ getAllTeamCodes team (some p.year),
            tradedAwayB code.data t.data = true := by
  intro csv team p hp t ht
  simp only [parseCSV] at hp
  split at hp
  · simp at hp
  · obtain ⟨l, -, hl⟩ := List.mem_filterMap.mp hp
    have hw := (processLine_some_spec team l p hl).2.2.2.2.2.2.2 t ht
    intro hex
    obtain ⟨code, hcode, htest⟩ := hex
    have hany : wasTradedAway team p.year t.data = true := by
      simp only [wasTradedAway, List.any_eq_true]
      exact ⟨code, hcode, htest⟩
    rw [hw] at hany
    exact Bool.false_ne_true hany

/-- Witness for C1: a concrete CSV row whose trade string starts with
another team's code is retained and satisfies the predicate. -/
theorem parseCSV_never_emits_traded_away_witness :
    ∃ p ∈ parseCSV "h\n2020,1,5,John,SG,6-5,200,19,Duke,Fr,BOS to ATL,3,US" "ATL",
      p.draftTrades = some "BOS to ATL" ∧
      ¬ ∃ code ∈ getAllTeamCodes "ATL" (some p.year),
          tradedAwayB code.data "BOS to ATL".data = true := by
  have hex : ∃ p ∈ parseCSV "h\n2020,1,5,John,SG,6-5,200,19,Duke,Fr,BOS to ATL,3,US" "ATL",
      p.draftTrades = some "BOS to ATL" := by decide
  obtain ⟨p, hp, hdt⟩ := hex
  exact ⟨p, hp, hdt, parseCSV_never_emits_traded_away _ "ATL" p hp _ hdt⟩

/-- C3: `parseTradeChain` returns `["CHA", "BOS", "ATL"]` on the sample
input with irregular whitespace and a repeated team, and the empty
sequence on null input, the empty string, and a separator-free string. -/
theorem parseTradeChain_examples :
    parseTradeChain (some "CHA to  BOS BOS  to ATL") = ["CHA", "BOS", "ATL"] ∧
    parseTradeChain none = [] ∧
    parseTradeChain (some "") = [] ∧
    parseTradeChain (some "ATL") = [] := by
  refine ⟨by decide, rfl, by decide, by decide⟩

/-- C5 counterexample: a data row whose year column is `"abc"` is still
emitted, but its year field is NaN, not 0, contradicting the claim that
unparseable numeric fields default to 0. -/
theorem unparseable_year_is_nan_not_zero :
    (parseCSV "h\nabc,1,2,P,G,6,200,20,X,S,,3,x" "ATL").map DraftPick.year =
      [JSNum.nan] ∧ JSNum.nan ≠ JSNum.val 0 := by decide

/-- C5 (amended): each numeric field of an emitted pick equals the JS
`parseInt`/`parseFloat` of the corresponding column with `"0"`
substituted when the column is empty, so empty columns yield 0 while a
present, wholly unparseable value yields NaN; the row is emitted either
way. -/
theorem numeric_fields_follow_js_parse (team : String) (line : List Char) (p : DraftPick)
    (h : processLine team line = some p) :
    (p.year = jsParseInt (jsOrDefault ((parseCSVLine line).getD 0 []) ['0']) ∧
     p.round = jsParseInt (jsOrDefault ((parseCSVLine line).getD 1 []) ['0']) ∧
     p.pick = jsParseInt (jsOrDefault ((parseCSVLine line).getD 2 []) ['0']) ∧
     p.weight = jsParseFloat (jsOrDefault ((parseCSVLine line).getD 6 []) ['0']) ∧
     p.age = jsParseFloat (jsOrDefault ((parseCSVLine line).getD 7 []) ['0']) ∧
     p.yearsOfService = jsParseInt (jsOrDefault ((parseCSVLine line).getD 11 []) ['0'])) ∧
    ((parseCSVLine line).getD 0 [] = [] → p.year = JSNum.val 0) ∧
    ((parseCSVLine line).getD 11 [] = [] → p.yearsOfService = JSNum.val 0) := by
  obtain ⟨h1, h2, h3, h4, h5, h6, -, -⟩ := processLine_some_spec team line p h
  refine ⟨⟨h1, h2, h3, h4, h5, h6⟩, ?_, ?_⟩
  · intro he
    rw [h1, he]
    decide
  · intro he
    rw [h6, he]
    decide

/-- Witness for the amended C5: on the row with year column `"abc"`, the
emitted year field equals `jsParseInt "abc"`, which is NaN. -/
theorem numeric_fields_follow_js_parse_witness :
    (processLine "ATL" "abc,1,2,P,G,6,200,20,X,S,,3,x".data).map DraftPick.year =
      some (jsParseInt (jsOrDefault
        ((parseCSVLine "abc,1,2,P,G,6,200,20,X,S,,3,x".data).getD 0 []) ['0'])) := by
  cases hE : processLine "ATL" "abc,1,2,P,G,6,200,20,X,S,,3,x".data with
  | none => exact absurd hE (by decide)
  | some p =>
      have h1 := (numeric_fields_follow_js_parse "ATL" _ p hE).1.1
      simp [h1]

/-- C8: the `draftTrades` field of every emitted pick is never the empty
string, and at the row level it is null exactly when the trade column is
blank after trimming. -/
theorem draftTrades_null_or_nonempty :
    (∀ (csvText team : String) (p : DraftPick), p ∈ parseCSV csvText team →
       p.draftTrades ≠ some "") ∧
    (∀ (team : String) (line : List Char) (p : DraftPick),
       processLine team line = some p →
       (trimChars ((parseCSVLine line).getD 10 []) = [] ↔ p.draftTrades = none)) := by
  constructor
  · intro csv team p hp hcontra
    simp only [parseCSV] at hp
    split at hp
    · simp at hp
    · obtain ⟨l, -, hl⟩ := List.mem_filterMap.mp hp
      have hdt := (processLine_some_spec team l p hl).2.2.2.2.2.2.1
      rw [hcontra] at hdt
      by_cases hd : trimChars ((parseCSVLine l).getD 10 []) = []
      · rw [if_neg (by simpa using hd)] at hdt
        exact Option.some_ne_none _ hdt
      · rw [if_pos hd] at hdt
        injection hdt with hdt2
        exact hd (congrArg String.data hdt2).symm
  · intro team line p h
    have hdt := (processLine_some_spec team line p h).2.2.2.2.2.2.1
    constructor
    · intro hd
      rw [hdt, if_neg (by simpa using hd)]
    · intro hn
      by_contra hd
      rw [hdt, if_pos hd] at hn
      exact Option.some_ne_none _ hn

/-- Witness for C8: a concrete emitted pick has a non-null, non-empty
trade string, and a blank trade column yields null. -/
theorem draftTrades_null_or_nonempty_witness :
    (∃ p ∈ parseCSV "h\n2020,1,5,John,SG,6-5,200,19,Duke,Fr,BOS to ATL,3,US" "ATL",
       p.draftTrades ≠ some "") := by
  have hex : ∃ p ∈ parseCSV "h\n2020,1,5,John,SG,6-5,200,19,Duke,Fr,BOS to ATL,3,US" "ATL",
      p.draftTrades = some "BOS to ATL" := by decide
  obtain ⟨p, hp, -⟩ := hex
  exact ⟨p, hp, draftTrades_null_or_nonempty.1 _ "ATL" p hp⟩

/-- C9: position normalisation removes exactly the first character when
it is literally `S` or `P` and leaves the string unchanged otherwise; at
most one leading guard character is ever stripped (`"SSG"` keeps its
second `S`). -/
theorem position_strip_single_guard :
    (∀ (c : Char) (rest : List Char),
       ((c = 'S' ∨ c = 'P') → stripSP (c :: rest) = rest) ∧
       (¬(c = 'S' ∨ c = 'P') → stripSP (c :: rest) = c :: rest)) ∧
    stripSP [] = [] ∧
    stripSP "SG".data = "G".data ∧
    stripSP "PF".data = "F".data ∧
    stripSP "SSG".data = "SG".data := by
  refine ⟨?_, rfl, by decide, by decide, by decide⟩
  intro c rest
  constructor
  · intro h
    simp [stripSP, h]
  · intro h
    simp [stripSP, h]

/-- Witness for C9: applied to `"SG"`, normalisation strips the guard
and yields `"G"`. -/
theorem position_strip_single_guard_witness :
    stripSP ('S' :: "G".data) = "G".data :=
  (position_strip_single_guard.1 'S' "G".data).1 (Or.inl rfl)

theorem getCanonicalTeam_upStr (s : String) (y : Option JSNum) :
    getCanonicalTeam (upStr s) y = getCanonicalTeam s y := by
  simp [getCanonicalTeam, upStr_idem]

theorem chainPairs_snd_eq (parts : List (List Char)) :
    ∀ p ∈ chainPairs parts, p.2 = getCanonicalTeam p.1 none := by
  intro p hp
  cases parts with
  | nil => simp [chainPairs] at hp
  | cons p0 rest =>
      simp only [chainPairs, List.head?_cons, List.tail_cons, List.mem_append] at hp
      rcases hp with hp | hp
      · by_cases h0 : trimChars p0 ≠ []
        · rw [if_pos h0] at hp
          simp only [List.mem_singleton] at hp
          subst hp
          exact (getCanonicalTeam_upStr ⟨trimChars p0⟩ none).symm
        · rw [if_neg h0] at hp
          simp at hp
      · obtain ⟨x, hx, hfx⟩ := List.mem_filterMap.mp hp
        split at hfx
        · exact absurd hfx (by simp)
        · split at hfx
          · injection hfx with hfx
            subst hfx
            exact (getCanonicalTeam_upStr _ none).symm
          · exact absurd hfx (by simp)

theorem foldl_unifyStep_inv (f : String → String) (ps : List (String × String)) :
    ∀ (acc : List String × List String),
      (∀ p ∈ ps, p.2 = f p.1) →
      acc.2 = acc.1.map f →
      List.Chain' (· ≠ ·) acc.2 →
      (List.foldl unifyStep acc ps).2 = (List.foldl unifyStep acc ps).1.map f ∧
        List.Chain' (· ≠ ·) (List.foldl unifyStep acc ps).2 := by
  induction ps with
  | nil =>
      intro acc _ h1 h2
      exact ⟨h1, h2⟩
  | cons p ps ih =>
      intro acc hps h1 h2
      simp only [List.foldl_cons]
      have hp2 : p.2 = f p.1 := hps p (List.mem_cons_self _ _)
      have hstep1 : (unifyStep acc p).2 = (unifyStep acc p).1.map f := by
        unfold unifyStep
        split
        · exact h1
        · split
          · exact h1
          · simp [h1, hp2]
      have hstep2 : List.Chain' (· ≠ ·) (unifyStep acc p).2 := by
        unfold unifyStep
        split
        · exact h2
        · split
          · exact h2
          · rename_i hne hlast
            refine List.Chain'.append h2 (by simp) ?_
            intro x hx y hy
            simp only [List.head?_cons, Option.mem_def, Option.some.injEq] at hy
            subst hy
            intro hxy
            exact hlast (by rw [← hxy]; exact hx)
      exact ih (unifyStep acc p)
        (fun q hq => hps q (List.mem_cons_of_mem _ hq)) hstep1 hstep2

/-- C10: for every input, `parseTradeChain` returns either the empty
sequence or one of length at least 2 (never a singleton), and no two
adjacent elements of the result share a canonical form under
`getCanonicalTeam`. -/
theorem parseTradeChain_no_adjacent_duplicates (s : Option String) :
    (parseTradeChain s = [] ∨ 2 ≤ (parseTradeChain s).length) ∧
    List.Chain' (fun a b => getCanonicalTeam a none ≠ getCanonicalTeam b none)
      (parseTradeChain s) := by
  cases s with
  | none => exact ⟨Or.inl rfl, List.chain'_nil⟩
  | some str =>
      by_cases hA : str.data = [] ∨ trimChars str.data = []
      · have h0 : parseTradeChain (some str) = [] := by
          simp [parseTradeChain, hA]
        rw [h0]
        exact ⟨Or.inl rfl, List.chain'_nil⟩
      · by_cases hB : (((splitWsToWs str.data []).map trimChars).filter
            (fun p => p ≠ [])).length < 2
        · have h0 : parseTradeChain (some str) = [] := by
            simp only [parseTradeChain]
            rw [if_neg hA, if_pos hB]
          rw [h0]
          exact ⟨Or.inl rfl, List.chain'_nil⟩
        · have hmain := foldl_unifyStep_inv (fun d => getCanonicalTeam d none)
            (chainPairs (((splitWsToWs str.data []).map trimChars).filter
              (fun p => p ≠ []))) ([], [])
            (chainPairs_snd_eq _) rfl List.chain'_nil
          by_cases hC : 2 ≤ (List.foldl unifyStep ([], [])
              (chainPairs (((splitWsToWs str.data []).map trimChars).filter
                (fun p => p ≠ [])))).1.length
          · have hres : parseTradeChain (some str) = (List.foldl unifyStep ([], [])
                (chainPairs (((splitWsToWs str.data []).map trimChars).filter
                  (fun p => p ≠ [])))).1 := by
              simp only [parseTradeChain]
              rw [if_neg hA, if_neg hB, if_pos hC]
            rw [hres]
            refine ⟨Or.inr hC, ?_⟩
            have hc2 := hmain.2
            rw [hmain.1] at hc2
            exact (List.chain'_map _).mp hc2
          · have hres : parseTradeChain (some str) = [] := by
              simp only [parseTradeChain]
              rw [if_neg hA, if_neg hB, if_neg hC]
            rw [hres]
            exact ⟨Or.inl rfl, List.chain'_nil⟩

theorem splitToSepF_fuel (fuel : Nat) :
    ∀ (fuel' : Nat) (l cur : List Char), l.length ≤ fuel → l.length ≤ fuel' →
      splitToSepF fuel l cur = splitToSepF fuel' l cur := by
  induction fuel with
  | zero =>
      intro fuel' l cur h h'
      cases l with
      | nil => cases fuel' <;> rfl
      | cons c rest => simp at h
  | succ f ih =>
      intro fuel' l cur h h'
      cases l with
      | nil => cases fuel' <;> rfl
      | cons c rest =>
          cases fuel' with
          | zero => simp at h'
          | succ f' =>
              simp only [splitToSepF]
              by_cases hc : c = ' ' ∧ rest.take 3 = ['t', 'o', ' ']
              · rw [if_pos hc, if_pos hc,
                  ih f' (rest.drop 3) [] (by simp at h ⊢; omega) (by simp at h' ⊢; omega)]
              · rw [if_neg hc, if_neg hc,
                  ih f' rest (c :: cur) (by simp at h ⊢; omega) (by simp at h' ⊢; omega)]

theorem splitToSep_append_nosp (t : List Char) :
    ∀ (r acc : List Char), (∀ c ∈ t, c ≠ ' ') →
      splitToSep (t ++ r) acc = splitToSep r (t.reverse ++ acc) := by
  induction t with
  | nil => intro r acc _; simp
  | cons c t ih =>
      intro r acc ht
      have hc : c ≠ ' ' := ht c (List.mem_cons_self _ _)
      have step : splitToSep ((c :: t) ++ r) acc = splitToSepF ((t ++ r).length) (t ++ r) (c :: acc) := by
        simp only [splitToSep, List.cons_append, List.length_cons, splitToSepF]
        rw [if_neg (by simp [hc])]
        rfl
      rw [step]
      have : splitToSepF ((t ++ r).length) (t ++ r) (c :: acc) = splitToSep (t ++ r) (c :: acc) := rfl
      rw [this, ih r (c :: acc) (fun d hd => ht d (List.mem_cons_of_mem _ hd))]
      simp

theorem splitToSep_sep (r acc : List Char) :
    splitToSep (' ' :: 't' :: 'o' :: ' ' :: r) acc = acc.reverse :: splitToSep r [] := by
  have step : splitToSep (' ' :: 't' :: 'o' :: ' ' :: r) acc =
      acc.reverse :: splitToSepF (r.length + 3) r [] := by
    simp only [splitToSep, List.length_cons, splitToSepF]
    rw [if_pos (by simp)]
    rfl
  rw [step, splitToSepF_fuel (r.length + 3) r.length r [] (by omega) (by omega)]
  rfl

theorem splitToSep_join (ts : List (List Char)) :
    ts ≠ [] → (∀ t ∈ ts, ∀ c ∈ t, c ≠ ' ') →
      splitToSep (joinSepChars ts) [] = ts := by
  induction ts with
  | nil => intro h _; exact absurd rfl h
  | cons t rest ih =>
      intro _ hts
      cases rest with
      | nil =>
          have := splitToSep_append_nosp t [] [] (hts t (List.mem_cons_self _ _))
          simp only [joinSepChars, List.append_nil] at this ⊢
          rw [this]
          simp [splitToSep, splitToSepF]
      | cons u rest' =>
          have hjoin : joinSepChars (t :: u :: rest') =
              t ++ (' ' :: 't' :: 'o' :: ' ' :: joinSepChars (u :: rest')) := by
            simp [joinSepChars]
          rw [hjoin,
            splitToSep_append_nosp t _ [] (hts t (List.mem_cons_self _ _)),
            splitToSep_sep]
          simp only [List.append_nil, List.reverse_reverse]
          rw [ih (by simp) (fun x hx c hc => hts x (List.mem_cons_of_mem _ hx) c hc)]

theorem matchWsToWs_none_of_head (c : Char) (rest : List Char) (hc : wsB c = false) :
    matchWsToWs (c :: rest) = none := by
  simp [matchWsToWs, List.takeWhile_cons, hc]

theorem matchWsToWs_sep (d : Char) (r2 : List Char) (hd : wsB d = false) :
    matchWsToWs (' ' :: 't' :: 'o' :: ' ' :: d :: r2) = some (d :: r2) := by
  have hsp : wsB ' ' = true := by decide
  have hts : wsB 't' = false := by decide
  simp [matchWsToWs, List.takeWhile_cons, List.dropWhile_cons, hsp, hts, hd]

theorem splitWsToWsF_fuel (fuel : Nat) :
    ∀ (fuel' : Nat) (l cur : List Char), l.length ≤ fuel → l.length ≤ fuel' →
      splitWsToWsF fuel l cur = splitWsToWsF fuel' l cur := by
  induction fuel with
  | zero =>
      intro fuel' l cur h h'
      cases l with
      | nil => cases fuel' <;> rfl
      | cons c rest => simp at h
  | succ f ih =>
      intro fuel' l cur h h'
      cases l with
      | nil => cases fuel' <;> rfl
      | cons c rest =>
          cases fuel' with
          | zero => simp at h'
          | succ f' =>
              simp only [splitWsToWsF]
              cases hm : matchWsToWs (c :: rest) with
              | some rem =>
                  have hlt := matchWsToWs_length _ _ hm
                  simp only [List.length_cons] at hlt h h'
                  dsimp only
                  rw [ih f' rem [] (by omega) (by omega)]
              | none =>
                  simp only [List.length_cons] at h h'
                  dsimp only
                  rw [ih f' rest (c :: cur) (by omega) (by omega)]

theorem splitWsToWs_append_nows (t : List Char) :
    ∀ (r acc : List Char), (∀ c ∈ t, wsB c = false) →
      splitWsToWs (t ++ r) acc = splitWsToWs r (t.reverse ++ acc) := by
  induction t with
  | nil => intro r acc _; simp
  | cons c t ih =>
      intro r acc ht
      have hc : wsB c = false := ht c (List.mem_cons_self _ _)
      have step : splitWsToWs ((c :: t) ++ r) acc =
          splitWsToWsF ((t ++ r).length) (t ++ r) (c :: acc) := by
        simp [splitWsToWs, List.cons_append, List.length_cons, splitWsToWsF,
          List.append_eq, matchWsToWs_none_of_head c (t ++ r) hc]
      rw [step]
      have h2 : splitWsToWsF ((t ++ r).length) (t ++ r) (c :: acc) =
          splitWsToWs (t ++ r) (c :: acc) := rfl
      rw [h2, ih r (c :: acc) (fun d hd => ht d (List.mem_cons_of_mem _ hd))]
      simp

theorem splitWsToWs_sep (d : Char) (r2 acc : List Char) (hd : wsB d = false) :
    splitWsToWs (' ' :: 't' :: 'o' :: ' ' :: d :: r2) acc =
      acc.reverse :: splitWsToWs (d :: r2) [] := by
  have step : splitWsToWs (' ' :: 't' :: 'o' :: ' ' :: d :: r2) acc =
      acc.reverse :: splitWsToWsF (r2.length + 4) (d :: r2) [] := by
    simp only [splitWsToWs, List.length_cons, splitWsToWsF, matchWsToWs_sep d r2 hd]
  rw [step, splitWsToWsF_fuel (r2.length + 4) (r2.length + 1) (d :: r2) []
    (by simp) (by simp)]
  rfl

theorem joinSepChars_cons (t : List Char) (rest : List (List Char)) :
    joinSepChars (t :: rest) =
      t ++ (if rest = [] then [] else ' ' :: 't' :: 'o' :: ' ' :: joinSepChars rest) := by
  cases rest with
  | nil => simp [joinSepChars]
  | cons u rest' => simp [joinSepChars]

theorem splitWsToWs_join (ts : List (List Char)) :
    ts ≠ [] → (∀ t ∈ ts, t ≠ []) → (∀ t ∈ ts, ∀ c ∈ t, wsB c = false) →
      splitWsToWs (joinSepChars ts) [] = ts := by
  induction ts with
  | nil => intro h _ _; exact absurd rfl h
  | cons t rest ih =>
      intro _ hne hts
      cases rest with
      | nil =>
          have := splitWsToWs_append_nows t [] [] (hts t (List.mem_cons_self _ _))
          simp only [joinSepChars, List.append_nil] at this ⊢
          rw [this]
          simp [splitWsToWs, splitWsToWsF]
      | cons u rest' =>
          obtain ⟨d, u', rfl⟩ : ∃ d u', u = d :: u' := by
            cases hu : u with
            | nil => exact absurd hu (hne u (by simp))
            | cons d u' => exact ⟨d, u', rfl⟩
          have hd : wsB d = false :=
            hts (d :: u') (by simp) d (List.mem_cons_self _ _)
          obtain ⟨z, hz⟩ : ∃ z, joinSepChars ((d :: u') :: rest') = d :: z := by
            rw [joinSepChars_cons]
            exact ⟨u' ++ (if rest' = [] then [] else ' ' :: 't' :: 'o' :: ' ' :: joinSepChars rest'), by simp⟩
          have hjoin : joinSepChars (t :: (d :: u') :: rest') =
              t ++ (' ' :: 't' :: 'o' :: ' ' :: (d :: z)) := by
            rw [joinSepChars_cons, if_neg (by simp), hz]
          rw [hjoin, splitWsToWs_append_nows t _ [] (hts t (List.mem_cons_self _ _)),
            splitWsToWs_sep d z _ hd]
          simp only [List.append_nil, List.reverse_reverse]
          rw [← hz, ih (by simp)
            (fun x hx => hne x (List.mem_cons_of_mem _ hx))
            (fun x hx c hc => hts x (List.mem_cons_of_mem _ hx) c hc)]

theorem lookup_mem : ∀ (l : List (String × String)) (k v : String),
    l.lookup k = some v → (k, v) ∈ l := by
  intro l
  induction l with
  | nil => intro k v h; simp [List.lookup] at h
  | cons p rest ih =>
      intro k v h
      obtain ⟨k1, v1⟩ := p
      rw [List.lookup] at h
      cases hbeq : k == k1 with
      | true =>
          rw [hbeq] at h
          injection h with h
          subst h
          rw [eq_of_beq hbeq]
          exact List.mem_cons_self _ _
      | false =>
          rw [hbeq] at h
          exact List.mem_cons_of_mem _ (ih k v h)

theorem upStr_ne_empty (s : String) (h : s.data ≠ []) : upStr s ≠ "" := by
  intro hc
  apply h
  have := congrArg String.data hc
  simpa [upStr, upChars] using this

theorem canon_ne_empty (s : String) (h : s.data ≠ []) :
    getCanonicalTeam s none ≠ "" := by
  have htab : ∀ p ∈ TEAM_ALIAS_MAP, p.2 ≠ "" := by decide
  simp only [getCanonicalTeam]
  rw [if_neg (by simp)]
  cases hl : TEAM_ALIAS_MAP.lookup (upStr s) with
  | none => simpa [hl] using upStr_ne_empty s h
  | some v =>
      simp only [hl, Option.getD_some]
      exact htab (upStr s, v) (lookup_mem _ _ _ hl)

theorem takeWhile_not_ws_eq_self (l : List Char) (h : ∀ c ∈ l, wsB c = false) :
    l.takeWhile (fun c => !(wsB c)) = l := by
  induction l with
  | nil => rfl
  | cons c rest ih =>
      rw [List.takeWhile_cons]
      rw [h c (List.mem_cons_self _ _)]
      simpa using ih (fun d hd => h d (List.mem_cons_of_mem _ hd))

theorem trimChars_eq_self (l : List Char) (h : ∀ c ∈ l, wsB c = false) :
    trimChars l = l := by
  have h1 : l.dropWhile wsB = l := by
    cases l with
    | nil => rfl
    | cons c rest =>
        rw [List.dropWhile_cons, h c (List.mem_cons_self _ _)]
        simp
  have h2 : l.reverse.dropWhile wsB = l.reverse := by
    cases hr : l.reverse with
    | nil => rfl
    | cons c rest =>
        have hc : c ∈ l := by
          rw [← List.mem_reverse, hr]
          exact List.mem_cons_self _ _
        rw [List.dropWhile_cons, h c hc]
        simp
  simp [trimChars, h1, h2]

theorem trimChars_ne_nil (c : Char) (l : List Char) (hc : wsB c = false) :
    trimChars (c :: l) ≠ [] := by
  intro hcontra
  have h1 : (c :: l).dropWhile wsB = c :: l := by
    rw [List.dropWhile_cons, hc]
    simp
  simp only [trimChars, h1] at hcontra
  rw [List.reverse_eq_nil_iff, List.dropWhile_eq_nil_iff] at hcontra
  have := hcontra c (by simp)
  rw [hc] at this
  exact Bool.false_ne_true this

theorem splitChar_no_sep (sep : Char) :
    ∀ (l acc : List Char), (∀ c ∈ l, c ≠ sep) →
      splitChar sep l acc = [acc.reverse ++ l] := by
  intro l
  induction l with
  | nil => intro acc _; simp [splitChar]
  | cons c rest ih =>
      intro acc h
      rw [splitChar, if_neg (h c (List.mem_cons_self _ _)),
        ih (c :: acc) (fun d hd => h d (List.mem_cons_of_mem _ hd))]
      simp

theorem filterMap_congr_some {α β : Type} (F : α → Option β) (g : α → β) :
    ∀ (l : List α), (∀ x ∈ l, F x = some (g x)) → l.filterMap F = l.map g := by
  intro l
  induction l with
  | nil => intro _; rfl
  | cons x rest ih =>
      intro h
      rw [List.filterMap_cons, h x (List.mem_cons_self _ _), List.map_cons,
        ih (fun y hy => h y (List.mem_cons_of_mem _ hy))]

theorem mem_zip_both {α β : Type} :
    ∀ (l1 : List α) (l2 : List β) (p : α × β), p ∈ l1.zip l2 → p.1 ∈ l1 ∧ p.2 ∈ l2 := by
  intro l1
  induction l1 with
  | nil => intro l2 p hp; simp [List.zip] at hp
  | cons a l1 ih =>
      intro l2 p hp
      cases l2 with
      | nil => simp [List.zip] at hp
      | cons b l2 =>
          rw [List.zip_cons_cons, List.mem_cons] at hp
          rcases hp with hp | hp
          · subst hp
            exact ⟨List.mem_cons_self _ _, List.mem_cons_self _ _⟩
          · obtain ⟨h1, h2⟩ := ih l2 p hp
            exact ⟨List.mem_cons_of_mem _ h1, List.mem_cons_of_mem _ h2⟩

theorem getLast?_cons_of_ne {α : Type} (x : α) (l : List α) (h : l ≠ []) :
    (x :: l).getLast? = l.getLast? := by
  cases l with
  | nil => exact absurd rfl h
  | cons y l' => simp [List.getLast?_cons_cons]

theorem map_getLast? {α β : Type} (f : α → β) :
    ∀ (l : List α), (l.map f).getLast? = l.getLast?.map f := by
  intro l
  induction l with
  | nil => rfl
  | cons x l ih =>
      cases hl : l with
      | nil => rfl
      | cons y l' =>
          subst hl
          rw [List.map_cons, getLast?_cons_of_ne _ _ (by simp),
            getLast?_cons_of_ne _ _ (by simp)]
          exact ih

theorem zip_tail_getLast? {α : Type} :
    ∀ (l : List α), 2 ≤ l.length →
      ∃ a b, (l.zip l.tail).getLast? = some (a, b) ∧ l.getLast? = some b := by
  intro l
  induction l with
  | nil => intro h; simp at h
  | cons t rest ih =>
      intro h
      cases rest with
      | nil => simp at h
      | cons u rest' =>
          cases rest' with
          | nil => exact ⟨t, u, by simp [List.zip], by simp⟩
          | cons v rest'' =>
              obtain ⟨a, b, h1, h2⟩ := ih (by simp)
              refine ⟨a, b, ?_, ?_⟩
              · rw [List.tail_cons, List.zip_cons_cons,
                  getLast?_cons_of_ne _ _ (by simp [List.zip, List.zip_cons_cons])]
                simpa using h1
              · rw [getLast?_cons_of_ne _ _ (by simp)]
                exact h2

theorem foldl_unifyStep_last_seen :
    ∀ (ps : List (String × String)) (acc : List String × List String),
      (∀ p ∈ ps, p.1 ≠ "" ∧ p.2 ≠ "") → ps ≠ [] →
      ∃ q, ps.getLast? = some q ∧
        (List.foldl unifyStep acc ps).2.getLast? = some q.2 := by
  intro ps
  induction ps with
  | nil => intro acc _ h; exact absurd rfl h
  | cons p ps ih =>
      intro acc hps _
      cases ps with
      | nil =>
          refine ⟨p, rfl, ?_⟩
          simp only [List.foldl_cons, List.foldl_nil]
          unfold unifyStep
          rw [if_neg (by
            have := hps p (List.mem_cons_self _ _)
            simp [this.1, this.2])]
          by_cases hl : acc.2.getLast? = some p.2
          · rw [if_pos hl]
            exact hl
          · rw [if_neg hl]
            simp
      | cons p' ps' =>
          obtain ⟨q, h1, h2⟩ := ih (unifyStep acc p)
            (fun r hr => hps r (List.mem_cons_of_mem _ hr)) (by simp)
          refine ⟨q, ?_, ?_⟩
          · rw [getLast?_cons_of_ne _ _ (by simp)]
            exact h1
          · simpa using h2

theorem chainPairs_all_valid (parts : List (List Char))
    (h : ∀ t ∈ parts, t ≠ [] ∧ t.length ≤ 4 ∧ ∀ c ∈ t, wsB c = false) :
    chainPairs parts =
      parts.map (fun t => (upStr ⟨t⟩, getCanonicalTeam ⟨t⟩ none)) := by
  cases parts with
  | nil => rfl
  | cons x xs =>
      obtain ⟨hx1, -, hx3⟩ := h x (List.mem_cons_self _ _)
      have htr : trimChars x = x := trimChars_eq_self x hx3
      simp only [chainPairs, List.head?_cons, List.tail_cons, htr, List.map_cons]
      rw [if_pos hx1]
      have : xs.filterMap (fun p =>
          let p' := trimChars p
          if p' = [] then none
          else
            let team := p'.takeWhile (fun c => !(wsB c))
            if team ≠ [] ∧ team.length ≤ 4 then
              some (getDisplayTeam ⟨team⟩, getCanonicalTeam ⟨team⟩ none)
            else none) =
          xs.map (fun t => (upStr ⟨t⟩, getCanonicalTeam ⟨t⟩ none)) := by
        apply filterMap_congr_some
        intro t ht
        obtain ⟨ht1, ht2, ht3⟩ := h t (List.mem_cons_of_mem _ ht)
        have htr2 : trimChars t = t := trimChars_eq_self t ht3
        have htk : t.takeWhile (fun c => !(wsB c)) = t := takeWhile_not_ws_eq_self t ht3
        simp only [htr2, htk]
        rw [if_neg (by simpa using ht1), if_pos ⟨ht1, ht2⟩]
        rfl
      rw [this]
      rfl

theorem tradeStepOf_valid (pq : List Char × List Char)
    (h1 : pq.1 ≠ []) (h1w : ∀ c ∈ pq.1, wsB c = false)
    (h2 : pq.2 ≠ []) (h2w : ∀ c ∈ pq.2, wsB c = false) :
    tradeStepOf pq = some ⟨upStr ⟨pq.1⟩, upStr ⟨pq.2⟩⟩ := by
  have hsp1 : ∀ c ∈ pq.1, c ≠ ' ' := by
    intro c hc he
    have := h1w c hc
    rw [he] at this
    exact absurd this (by decide)
  have hsp2 : ∀ c ∈ pq.2, c ≠ ' ' := by
    intro c hc he
    have := h2w c hc
    rw [he] at this
    exact absurd this (by decide)
  simp only [tradeStepOf, trimChars_eq_self _ h1w, trimChars_eq_self _ h2w,
    splitChar_no_sep ' ' _ [] hsp1, splitChar_no_sep ' ' _ [] hsp2,
    List.reverse_nil, List.nil_append, List.getLast?_singleton, List.head?_cons,
    Option.getD_some]
  rw [if_pos ⟨h1, h2⟩]
  rfl

theorem mem_of_mem_tail {α : Type} (l : List α) (x : α) (h : x ∈ l.tail) : x ∈ l := by
  cases l with
  | nil => simp at h
  | cons a rest => exact List.mem_cons_of_mem _ h

theorem map_id_of {α : Type} (f : α → α) :
    ∀ (l : List α), (∀ x ∈ l, f x = x) → l.map f = l := by
  intro l
  induction l with
  | nil => intro _; rfl
  | cons a rest ih =>
      intro h
      rw [List.map_cons, h a (List.mem_cons_self _ _),
        ih (fun x hx => h x (List.mem_cons_of_mem _ hx))]

theorem filter_eq_self_of {α : Type} (p : α → Bool) :
    ∀ (l : List α), (∀ x ∈ l, p x = true) → l.filter p = l := by
  intro l
  induction l with
  | nil => intro _; rfl
  | cons a rest ih =>
      intro h
      rw [List.filter_cons, if_pos (h a (List.mem_cons_self _ _)),
        ih (fun x hx => h x (List.mem_cons_of_mem _ hx))]

theorem getLast?_some_of_ne_nil {α : Type} :
    ∀ (l : List α), l ≠ [] → ∃ d, l.getLast? = some d := by
  intro l
  induction l with
  | nil => intro h; exact absurd rfl h
  | cons a rest ih =>
      intro _
      cases hr : rest with
      | nil => exact ⟨a, rfl⟩
      | cons b rest' =>
          obtain ⟨d, hd⟩ := ih (by simp [hr])
          rw [hr] at hd
          exact ⟨d, by rw [getLast?_cons_of_ne _ _ (by simp)]; exact hd⟩

/-- C4 (amended): for a grammar-conforming trade string built from two or
more valid team codes, `parseDraftTrade` returns exactly one step per
`" to "` separator, the returned `finalTeam` equals the `to` of the last
step, and whenever `parseTradeChain` returns a non-empty chain, the
canonical form of the chain's final element equals the canonical form of
that last `to`.  (The chain can be empty even for valid strings when
alias collapse leaves fewer than two teams.) -/
theorem parseDraftTrade_steps_count_final (ts : List String)
    (hv : ∀ t ∈ ts, ValidTeam t) (hlen : 2 ≤ ts.length) :
    ∃ pt, parseDraftTrade (some (joinToSep ts)) = some pt ∧
      pt.steps.length = ts.length - 1 ∧
      (∃ st, pt.steps.getLast? = some st ∧ pt.finalTeam = st.to_) ∧
      (parseTradeChain (some (joinToSep ts)) ≠ [] →
        ∃ d, (parseTradeChain (some (joinToSep ts))).getLast? = some d ∧
          getCanonicalTeam d none = getCanonicalTeam pt.finalTeam none) := by
  have hne : ∀ t ∈ ts.map String.data, t ≠ [] := by
    intro t ht
    obtain ⟨u, hu, rfl⟩ := List.mem_map.mp ht
    have h2 := (hv u hu).1
    intro hc
    rw [hc] at h2
    simp at h2
  have hws : ∀ t ∈ ts.map String.data, ∀ c ∈ t, wsB c = false := by
    intro t ht
    obtain ⟨u, hu, rfl⟩ := List.mem_map.mp ht
    exact (hv u hu).2.2
  have hlen4 : ∀ t ∈ ts.map String.data, t.length ≤ 4 := by
    intro t ht
    obtain ⟨u, hu, rfl⟩ := List.mem_map.mp ht
    exact (hv u hu).2.1
  have hsp : ∀ t ∈ ts.map String.data, ∀ c ∈ t, c ≠ ' ' := by
    intro t ht c hc he
    have := hws t ht c hc
    rw [he] at this
    exact absurd this (by decide)
  have htsne : ts.map String.data ≠ [] := by
    cases ts with
    | nil => simp at hlen
    | cons a l => simp
  obtain ⟨c0, r0, hj, hc0⟩ : ∃ c0 r0,
      joinSepChars (ts.map String.data) = c0 :: r0 ∧ wsB c0 = false := by
    cases ts with
    | nil => simp at hlen
    | cons t0 ts' =>
        cases hd0 : t0.data with
        | nil => exact absurd hd0 (by simpa using hne t0.data (by simp))
        | cons c0 t0' =>
            refine ⟨c0, t0' ++ (if ts'.map String.data = [] then []
              else ' ' :: 't' :: 'o' :: ' ' :: joinSepChars (ts'.map String.data)), ?_, ?_⟩
            · rw [List.map_cons, joinSepChars_cons, hd0]
              simp
            · exact hws t0.data (by simp) c0 (by rw [hd0]; exact List.mem_cons_self _ _)
  have hblank : ¬((joinToSep ts).data = [] ∨ trimChars (joinToSep ts).data = []) := by
    rw [show (joinToSep ts).data = joinSepChars (ts.map String.data) from rfl, hj]
    push_neg
    exact ⟨by simp, trimChars_ne_nil c0 r0 hc0⟩
  have hsplit1 : splitToSep (joinToSep ts).data [] = ts.map String.data :=
    splitToSep_join _ htsne hsp
  have hsplit2 : splitWsToWs (joinToSep ts).data [] = ts.map String.data :=
    splitWsToWs_join _ htsne hne hws
  have hsteps : ((ts.map String.data).zip (ts.map String.data).tail).filterMap tradeStepOf =
      ((ts.map String.data).zip (ts.map String.data).tail).map
        (fun pq => (⟨upStr ⟨pq.1⟩, upStr ⟨pq.2⟩⟩ : TradeStep)) := by
    apply filterMap_congr_some
    intro pq hpq
    obtain ⟨hm1, hm2t⟩ := mem_zip_both _ _ pq hpq
    have hm2 := mem_of_mem_tail _ _ hm2t
    exact tradeStepOf_valid pq (hne _ hm1) (hws _ hm1) (hne _ hm2) (hws _ hm2)
  have hlen2 : 2 ≤ (ts.map String.data).length := by simpa using hlen
  obtain ⟨a, b, hz1, hz2⟩ := zip_tail_getLast? (ts.map String.data) hlen2
  have hlastm : (((ts.map String.data).zip (ts.map String.data).tail).map
      (fun pq => (⟨upStr ⟨pq.1⟩, upStr ⟨pq.2⟩⟩ : TradeStep))).getLast? =
      some ⟨upStr ⟨a⟩, upStr ⟨b⟩⟩ := by
    rw [map_getLast? _ _, hz1]
    rfl
  have hpd : parseDraftTrade (some (joinToSep ts)) =
      some ⟨joinToSep ts,
        ((ts.map String.data).zip (ts.map String.data).tail).map
          (fun pq => (⟨upStr ⟨pq.1⟩, upStr ⟨pq.2⟩⟩ : TradeStep)),
        upStr ⟨b⟩⟩ := by
    simp only [parseDraftTrade]
    rw [if_neg hblank, hsplit1, hsteps, hlastm]
    simp only [Option.some.injEq, ParsedTrade.mk.injEq]
    refine ⟨trivial, trivial, ?_⟩
    show getDisplayTeam (upStr ⟨b⟩) = upStr ⟨b⟩
    simp [getDisplayTeam, upStr_idem]
  refine ⟨_, hpd, ?_, ?_, ?_⟩
  · show (((ts.map String.data).zip (ts.map String.data).tail).map
        (fun pq => (⟨upStr ⟨pq.1⟩, upStr ⟨pq.2⟩⟩ : TradeStep))).length = ts.length - 1
    simp only [List.length_map, List.length_zip, List.length_tail]
    omega
  · exact ⟨⟨upStr ⟨a⟩, upStr ⟨b⟩⟩, hlastm, rfl⟩
  · intro hchne
    have hparts : ((splitWsToWs (joinToSep ts).data []).map trimChars).filter
        (fun p => p ≠ []) = ts.map String.data := by
      rw [hsplit2, map_id_of trimChars _ (fun x hx => trimChars_eq_self x (hws x hx)),
        filter_eq_self_of _ _ (fun x hx => decide_eq_true (hne x hx))]
    have hchain : parseTradeChain (some (joinToSep ts)) =
        (if 2 ≤ (List.foldl unifyStep ([], []) (chainPairs (ts.map String.data))).1.length
         then (List.foldl unifyStep ([], []) (chainPairs (ts.map String.data))).1
         else []) := by
      simp only [parseTradeChain]
      rw [if_neg hblank, hparts, if_neg (by simp only [List.length_map]; omega)]
    by_cases hC : 2 ≤ (List.foldl unifyStep ([], [])
        (chainPairs (ts.map String.data))).1.length
    · have hcheq : parseTradeChain (some (joinToSep ts)) =
          (List.foldl unifyStep ([], []) (chainPairs (ts.map String.data))).1 := by
        rw [hchain, if_pos hC]
      have hUne : (List.foldl unifyStep ([], [])
          (chainPairs (ts.map String.data))).1 ≠ [] := by
        intro h0
        rw [h0] at hC
        simp at hC
      obtain ⟨d, hd⟩ := getLast?_some_of_ne_nil _ hUne
      have hinv := foldl_unifyStep_inv (fun x => getCanonicalTeam x none)
        (chainPairs (ts.map String.data)) ([], []) (chainPairs_snd_eq _) rfl
        List.chain'_nil
      have hpairsmap := chainPairs_all_valid (ts.map String.data)
        (fun t ht => ⟨hne t ht, hlen4 t ht, hws t ht⟩)
      have hpne : ∀ p ∈ chainPairs (ts.map String.data), p.1 ≠ "" ∧ p.2 ≠ "" := by
        intro p hp
        rw [hpairsmap] at hp
        obtain ⟨t, ht, rfl⟩ := List.mem_map.mp hp
        exact ⟨upStr_ne_empty ⟨t⟩ (hne t ht), canon_ne_empty ⟨t⟩ (hne t ht)⟩
      have hcne : chainPairs (ts.map String.data) ≠ [] := by
        rw [hpairsmap]
        intro h0
        exact htsne (by simpa using h0)
      obtain ⟨q, hq1, hq2⟩ := foldl_unifyStep_last_seen
        (chainPairs (ts.map String.data)) ([], []) hpne hcne
      have hq : q = (upStr ⟨b⟩, getCanonicalTeam ⟨b⟩ none) := by
        rw [hpairsmap, map_getLast? _ _, hz2] at hq1
        injection hq1 with hq1
        exact hq1.symm
      have hseen : (List.foldl unifyStep ([], [])
          (chainPairs (ts.map String.data))).2.getLast? =
          some (getCanonicalTeam d none) := by
        rw [hinv.1, map_getLast? _ _, hd]
        rfl
      have hfd : getCanonicalTeam d none = q.2 := by
        have hh := hseen.symm.trans hq2
        injection hh with hh
      refine ⟨d, by rw [hcheq]; exact hd, ?_⟩
      rw [hfd, hq]
      show getCanonicalTeam ⟨b⟩ none = getCanonicalTeam (upStr ⟨b⟩) none
      exact (getCanonicalTeam_upStr _ _).symm
    · exfalso
      apply hchne
      rw [hchain, if_neg hC]

/-- C4 counterexample: `"SEA to OKC"` conforms to the grammar with one
`" to "` separator, and `parseDraftTrade` produces its single step with
final team `OKC`, yet `parseTradeChain` collapses `SEA` and `OKC` to the
same canonical team and returns the empty chain, which has no final
element to equal the last step's `to`. -/
theorem parseChain_final_element_missing :
    (∀ t ∈ ["SEA", "OKC"], ValidTeam t) ∧
    (∃ pt, parseDraftTrade (some (joinToSep ["SEA", "OKC"])) = some pt ∧
       pt.steps.length = 1 ∧ pt.finalTeam = "OKC") ∧
    parseTradeChain (some (joinToSep ["SEA", "OKC"])) = [] := by decide

/-- Witness for the amended C4 at the concrete chain
`"CHA to BOS to ATL"`. -/
theorem parseDraftTrade_steps_count_final_witness :
    ∃ pt, parseDraftTrade (some (joinToSep ["CHA", "BOS", "ATL"])) = some pt ∧
      pt.steps.length = 2 ∧
      (∃ st, pt.steps.getLast? = some st ∧ pt.finalTeam = st.to_) ∧
      (parseTradeChain (some (joinToSep ["CHA", "BOS", "ATL"])) ≠ [] →
        ∃ d, (parseTradeChain (some (joinToSep ["CHA", "BOS", "ATL"]))).getLast? =
            some d ∧
          getCanonicalTeam d none = getCanonicalTeam pt.finalTeam none) := by
  have h := parseDraftTrade_steps_count_final ["CHA", "BOS", "ATL"]
    (by decide) (by decide)
  simpa using h
